import Mathlib

/-!
Shallow embedding of the pulumi-htpasswd dynamic provider.

The current provider lives in `src/unnamed/part_001`; a legacy variant of the
same provider lives in `src/index.ts`.  Effects are made explicit:

* the bcrypt hashing capability (`require('bcryptjs').hash(password, 10)`)
  is an injected function `hashFn : String → String`;
* the randomness source (`require('crypto').randomBytes(32)`) is an injected
  supply `rand : Nat → List Nat` of byte blocks together with a counter that
  each call advances by one;
* thrown exceptions become `Except HtpasswdError`;
* the runtime representation of the TypeScript string enum
  `HtpasswdAlgorithm` is a plain `String` (the enum member `Bcrypt` is the
  string `"Bcrypt"`), so that the `default: throw` arm of `createHash` is
  reachable, exactly as at runtime.
-/

namespace Htpasswd

/-- Runtime value of the TS enum member `HtpasswdAlgorithm.Bcrypt`. -/
def bcryptTag : String := "Bcrypt"

/-- Value of `HtpasswdProvider.defaultAlgorithm = HtpasswdAlgorithm.Bcrypt`. -/
def defaultAlgorithm : String := bcryptTag

/-- Embedding of `HtpasswdEntry`: the optional password is a true three-state field,
`none` (unset) being distinct from `some ""`. -/
structure HtpasswdEntry where
  username : String
  password : Option String
deriving DecidableEq

/-- Embedding of `HtpasswdInputs`: desired entries plus an optional algorithm tag. -/
structure HtpasswdInputs where
  entries : List HtpasswdEntry
  algorithm : Option String
deriving DecidableEq

/-- One element of `HtpasswdProviderState.hashedEntries`:
`{ entry, password, hash }`. -/
structure HashedEntry where
  entry : HtpasswdEntry
  password : String
  hash : String
deriving DecidableEq

/-- Embedding of `HtpasswdProviderState`. -/
structure ProviderState where
  algorithm : String
  hashedEntries : List HashedEntry
deriving DecidableEq

/-- A plaintext output entry `{username, password}` with the password
always present (the shape `computeOutputs` produces). -/
structure PlainEntry where
  username : String
  password : String
deriving DecidableEq

/-- Embedding of `HtpasswdProviderOutputs`.  The `state` field is optional on the way
back in: `diff` defends against old outputs that lack it (outputs written
by the legacy provider of `src/index.ts` have no `state` field). -/
structure ProviderOutputs where
  result : String
  plaintextEntries : List PlainEntry
  state : Option ProviderState
deriving DecidableEq

/-- The two exceptions `createHash` can throw. -/
inductive HtpasswdError where
  | missingPassword (username : String)
  | unsupportedAlgorithm
deriving DecidableEq

/-- Embedding of `DiffResult`. -/
structure DiffResult where
  changes : Bool
deriving DecidableEq

/-! ### Secret Generator (`randomString`)

`randomString` is `crypto.randomBytes(32).toString('base64')` followed by the
three global single-character regex replacements `+ → -`, `/ → _`, `= → ∅`.
We implement Node's base64 encoder over a byte list. -/

/-- The standard base64 alphabet, as used by `Buffer.toString('base64')`. -/
def base64Alphabet : List Char :=
  "ABCDEFGHIJKLMNOPQRSTUVWXYZabcdefghijklmnopqrstuvwxyz0123456789+/".toList

/-- Table lookup into the base64 alphabet. -/
def b64char (n : Nat) : Char := base64Alphabet.getD n 'A'

/-- Base64 encoding (with `=` padding) of a byte list, three bytes per
four output characters. -/
def base64Chars : List Nat → List Char
  | [] => []
  | [b1] => [b64char (b1 / 4), b64char (b1 % 4 * 16), '=', '=']
  | [b1, b2] => [b64char (b1 / 4), b64char (b1 % 4 * 16 + b2 / 16),
      b64char (b2 % 16 * 4), '=']
  | b1 :: b2 :: b3 :: rest =>
      b64char (b1 / 4) :: b64char (b1 % 4 * 16 + b2 / 16) ::
      b64char (b2 % 16 * 4 + b3 / 64) :: b64char (b3 % 64) ::
      base64Chars rest

/-- Computation `randomBytes(32).toString('base64').replace(/\+/g,'-').replace(/\//g,'_')
.replace(/\=/g,'')`, applied to a given byte block.  The global
single-character replacements are character maps; removing `=` is a filter. -/
def randomStringOfBytes (bs : List Nat) : String :=
  String.mk ((((base64Chars bs).map
    (fun c => if c = '+' then '-' else c)).map
    (fun c => if c = '/' then '_' else c)).filter
    (fun c => c ≠ '='))

/-- One call of `randomString()` against supply `rand` at counter `n`. -/
def randomString (rand : Nat → List Nat) (n : Nat) : String :=
  randomStringOfBytes (rand n)

/-- The supply behaves like `crypto.randomBytes(32)`: every block is 32
bytes, each below 256. -/
def validSupply (rand : Nat → List Nat) : Prop :=
  ∀ n, (rand n).length = 32 ∧ ∀ b ∈ rand n, b < 256

/-! ### Hash Engine (`createHash`, part_001 lines 165–183) -/

/-- Embedding of `createHash(username, password, algorithm)`: throws when the password is
falsy (empty), dispatches on the algorithm tag with a throwing default arm,
and returns the canonical line `username:hash`. -/
def createHash (hashFn : String → String) (username password algorithm : String) :
    Except HtpasswdError String :=
  if password = "" then .error (.missingPassword username)
  else if algorithm = bcryptTag then .ok (username ++ ":" ++ hashFn password)
  else .error .unsupportedAlgorithm

/-! ### Entry Resolver (`computeState`, part_001 lines 91–124)

`inputs.entries.map(async entry => ...)` under `Promise.all`: for each desired
entry the first previous hashed entry whose `entry` is deeply equal is reused
wholesale; otherwise the password defaults (`entry.password ?? randomString()`)
and a fresh hash is computed.  Sequentialising the fan-out keeps the
randomness-consumption order and the first-failing-entry error. -/

def resolveEntries (hashFn : String → String) (rand : Nat → List Nat)
    (algorithm : String) (prev : List HashedEntry) :
    List HtpasswdEntry → Nat → Except HtpasswdError (List HashedEntry × Nat)
  | [], ctr => .ok ([], ctr)
  | e :: rest, ctr =>
    match prev.find? (fun s => decide (s.entry = e)) with
    | some h => do
        let (hs, ctr') ← resolveEntries hashFn rand algorithm prev rest ctr
        .ok (h :: hs, ctr')
    | none =>
        let pc : String × Nat :=
          match e.password with
          | some p => (p, ctr)
          | none => (randomString rand ctr, ctr + 1)
        do
          let h ← createHash hashFn e.username pc.1 algorithm
          let (hs, ctr') ← resolveEntries hashFn rand algorithm prev rest pc.2
          .ok (⟨e, pc.1, h⟩ :: hs, ctr')

/-- Embedding of `computeState(state, inputs)`: defaults the algorithm, defaults a missing
previous state to one with no hashed entries, and resolves the desired
entries against the previous ones. -/
def computeState (hashFn : String → String) (rand : Nat → List Nat) (ctr : Nat)
    (state : Option ProviderState) (inputs : HtpasswdInputs) :
    Except HtpasswdError (ProviderState × Nat) := do
  let algorithm := inputs.algorithm.getD defaultAlgorithm
  let prev := (state.map ProviderState.hashedEntries).getD []
  let (entries, ctr') ← resolveEntries hashFn rand algorithm prev inputs.entries ctr
  .ok (⟨algorithm, entries⟩, ctr')

/-! ### State Composer (`computeOutputs`, part_001 lines 126–148) -/

/-- Embedding of `computeOutputs(state)`: result is the `\n`-join of the hash lines,
`plaintextEntries` the parallel `{username, password}` list, and the state
snapshot rides along for future diffs. -/
def computeOutputs (st : ProviderState) : ProviderOutputs :=
  { result := String.intercalate "\n" (st.hashedEntries.map HashedEntry.hash)
    plaintextEntries := st.hashedEntries.map (fun e => ⟨e.entry.username, e.password⟩)
    state := some st }

/-! ### Lifecycle operations (part_001 lines 61–89) -/

/-- Embedding of `create(inputs)`: full resolution from an empty previous state; the id is
a fresh random string minted after resolution. -/
def create (hashFn : String → String) (rand : Nat → List Nat) (ctr : Nat)
    (inputs : HtpasswdInputs) : Except HtpasswdError (String × ProviderOutputs) := do
  let (st, ctr') ← computeState hashFn rand ctr none inputs
  .ok (randomString rand ctr', computeOutputs st)

/-- Embedding of `diff(id, olds, news)`: bootstrap when `olds` or `olds.state` is missing,
else compares the effective algorithms and the stored original entries
against the new desired entries. -/
def diff (olds : Option ProviderOutputs) (news : HtpasswdInputs) : DiffResult :=
  match olds with
  | none => ⟨true⟩
  | some o =>
    match o.state with
    | none => ⟨true⟩
    | some st =>
      ⟨decide ¬(st.algorithm = news.algorithm.getD defaultAlgorithm ∧
        st.hashedEntries.map HashedEntry.entry = news.entries)⟩

/-- Embedding of `update(id, olds, news)`: resolution against `olds.state`. -/
def update (hashFn : String → String) (rand : Nat → List Nat) (ctr : Nat)
    (olds : ProviderOutputs) (news : HtpasswdInputs) :
    Except HtpasswdError ProviderOutputs := do
  let (st, _) ← computeState hashFn rand ctr olds.state news
  .ok (computeOutputs st)

/-! ### Legacy provider (`src/index.ts`) -/

namespace Legacy

/-- Outputs of the legacy provider: no opaque state snapshot; the raw inputs
ride along for future diffs instead. -/
structure LegacyOutputs where
  result : String
  plaintextEntries : List PlainEntry
  algorithm : String
  entries : List HtpasswdEntry
deriving DecidableEq

/-- Embedding of `inputs.entries.map(entry => ({username, password: entry.password ??
randomString()}))` (index.ts lines 46–49): resolve all passwords first,
consuming randomness in entry order. -/
def legacyResolve (rand : Nat → List Nat) :
    List HtpasswdEntry → Nat → List PlainEntry × Nat
  | [], ctr => ([], ctr)
  | e :: rest, ctr =>
    let pc : String × Nat :=
      match e.password with
      | some p => (p, ctr)
      | none => (randomString rand ctr, ctr + 1)
    let rc := legacyResolve rand rest pc.2
    (⟨e.username, pc.1⟩ :: rc.1, rc.2)

/-- Legacy `createHash(entry, algorithm)` (index.ts lines 109–123): no
empty-password check, same dispatch with throwing default arm. -/
def legacyCreateHash (hashFn : String → String) (e : PlainEntry)
    (algorithm : String) : Except HtpasswdError String :=
  if algorithm = bcryptTag then .ok (e.username ++ ":" ++ hashFn e.password)
  else .error .unsupportedAlgorithm

/-- Sequentialised `Promise.all(entries.map(entry => createHash(entry,
algorithm)))` (index.ts lines 51–53). -/
def legacyHashAll (hashFn : String → String) (algorithm : String) :
    List PlainEntry → Except HtpasswdError (List String)
  | [] => .ok []
  | e :: rest => do
      let h ← legacyCreateHash hashFn e algorithm
      let hs ← legacyHashAll hashFn algorithm rest
      .ok (h :: hs)

/-- Legacy `create(inputs)` (index.ts lines 43–70). -/
def legacyCreate (hashFn : String → String) (rand : Nat → List Nat) (ctr : Nat)
    (inputs : HtpasswdInputs) : Except HtpasswdError (String × LegacyOutputs) := do
  let algorithm := inputs.algorithm.getD defaultAlgorithm
  let rc := legacyResolve rand inputs.entries ctr
  let hashes ← legacyHashAll hashFn algorithm rc.1
  .ok (randomString rand rc.2,
    ⟨String.intercalate "\n" hashes, rc.1, inputs.algorithm.getD defaultAlgorithm,
      inputs.entries⟩)

end Legacy

end Htpasswd

namespace Htpasswd

/-! ## Basic facts about the Secret Generator -/

theorem base64Alphabet_length : base64Alphabet.length = 64 := by decide

theorem b64char_ne_pad (n : Nat) : b64char n ≠ '=' := by
  by_cases h : n < 64
  · revert h
    revert n
    decide
  · unfold b64char
    rw [List.getD_eq_default]
    · decide
    · rw [base64Alphabet_length]
      omega

theorem base64Chars_cons_head (b : Nat) (tl : List Nat) :
    ∃ rest, base64Chars (b :: tl) = b64char (b / 4) :: rest := by
  match tl with
  | [] => exact ⟨_, rfl⟩
  | [b2] => exact ⟨_, rfl⟩
  | b2 :: b3 :: r => exact ⟨_, rfl⟩

theorem base64Chars_mem {bs : List Nat} (hb : ∀ b ∈ bs, b < 256) {c : Char}
    (hc : c ∈ base64Chars bs) : c = '=' ∨ ∃ k, k < 64 ∧ c = b64char k := by
  induction bs using base64Chars.induct with
  | case1 => simp [base64Chars] at hc
  | case2 b1 =>
      have h1 : b1 < 256 := hb b1 (by simp)
      simp [base64Chars] at hc
      rcases hc with rfl | rfl | rfl
      · exact Or.inr ⟨b1 / 4, by omega, rfl⟩
      · exact Or.inr ⟨b1 % 4 * 16, by omega, rfl⟩
      · exact Or.inl rfl
  | case3 b1 b2 =>
      have h1 : b1 < 256 := hb b1 (by simp)
      have h2 : b2 < 256 := hb b2 (by simp)
      simp [base64Chars] at hc
      rcases hc with rfl | rfl | rfl | rfl
      · exact Or.inr ⟨b1 / 4, by omega, rfl⟩
      · exact Or.inr ⟨b1 % 4 * 16 + b2 / 16, by omega, rfl⟩
      · exact Or.inr ⟨b2 % 16 * 4, by omega, rfl⟩
      · exact Or.inl rfl
  | case4 b1 b2 b3 rest ih =>
      have h1 : b1 < 256 := hb b1 (by simp)
      have h2 : b2 < 256 := hb b2 (by simp)
      have h3 : b3 < 256 := hb b3 (by simp)
      simp only [base64Chars, List.mem_cons] at hc
      rcases hc with rfl | rfl | rfl | rfl | hc
      · exact Or.inr ⟨b1 / 4, by omega, rfl⟩
      · exact Or.inr ⟨b1 % 4 * 16 + b2 / 16, by omega, rfl⟩
      · exact Or.inr ⟨b2 % 16 * 4 + b3 / 64, by omega, rfl⟩
      · exact Or.inr ⟨b3 % 64, by omega, rfl⟩
      · exact ih (fun b hbm => hb b (by simp [hbm])) hc

theorem mapped_b64_safe : ∀ k, k < 64 →
    ((if (if b64char k = '+' then '-' else b64char k) = '/' then '_'
        else if b64char k = '+' then '-' else b64char k).isAlphanum = true ∨
      (if (if b64char k = '+' then '-' else b64char k) = '/' then '_'
        else if b64char k = '+' then '-' else b64char k) = '-' ∨
      (if (if b64char k = '+' then '-' else b64char k) = '/' then '_'
        else if b64char k = '+' then '-' else b64char k) = '_') := by
  decide

theorem randomStringOfBytes_ne_empty {bs : List Nat} (h : bs ≠ []) :
    randomStringOfBytes bs ≠ "" := by
  obtain ⟨b, tl, rfl⟩ := List.exists_cons_of_ne_nil h
  obtain ⟨rest, hrest⟩ := base64Chars_cons_head b tl
  intro heq
  have hdata := congrArg String.data heq
  simp only [randomStringOfBytes, hrest] at hdata
  set c0 := b64char (b / 4) with hc0
  have hne : (if (if c0 = '+' then '-' else c0) = '/' then '_'
      else if c0 = '+' then '-' else c0) ≠ '=' := by
    have := b64char_ne_pad (b / 4)
    rw [← hc0] at this
    split
    · decide
    · split
      · decide
      · exact this
  simp [List.filter_cons, hne] at hdata

end Htpasswd

namespace Htpasswd

/-! ## Monadic plumbing -/

theorem except_bind_ok {ε α β : Type} {m : Except ε α} {f : α → Except ε β} {b : β} :
    (m >>= f) = Except.ok b ↔ ∃ a, m = Except.ok a ∧ f a = Except.ok b := by
  cases m <;> simp [Bind.bind, Except.bind]

theorem except_bind_error {ε α β : Type} {m : Except ε α} {f : α → Except ε β} {err : ε} :
    (m >>= f) = Except.error err ↔
      m = Except.error err ∨ ∃ a, m = Except.ok a ∧ f a = Except.error err := by
  cases m <;> simp [Bind.bind, Except.bind]

/-! ## Hash Engine facts -/

theorem createHash_ok_iff {hashFn : String → String} {u p a h : String} :
    createHash hashFn u p a = .ok h ↔
      p ≠ "" ∧ a = bcryptTag ∧ h = u ++ ":" ++ hashFn p := by
  by_cases hp : p = ""
  · simp [createHash, hp]
  · by_cases ha : a = bcryptTag
    · simp [createHash, hp, ha, eq_comm]
    · simp [createHash, hp, ha]

theorem createHash_error_iff {hashFn : String → String} {u p a : String}
    {err : HtpasswdError} :
    createHash hashFn u p a = .error err ↔
      (p = "" ∧ err = .missingPassword u) ∨
      (p ≠ "" ∧ a ≠ bcryptTag ∧ err = .unsupportedAlgorithm) := by
  by_cases hp : p = ""
  · simp [createHash, hp, eq_comm]
  · by_cases ha : a = bcryptTag
    · simp [createHash, hp, ha]
    · simp [createHash, hp, ha, eq_comm]

/-! ## Entry Resolver characterisation -/

/-- What `computeState` guarantees for one desired entry `e` and the hashed
entry `r` produced at its position: either the first deeply-equal previous
entry is reused wholesale, or there is no such previous entry and `r` was
built fresh (explicit password kept, unset password drawn from the
generator, hash freshly computed by the Hash Engine). -/
def ResolvedR (hashFn : String → String) (rand : Nat → List Nat) (alg : String)
    (prev : List HashedEntry) (e : HtpasswdEntry) (r : HashedEntry) : Prop :=
  prev.find? (fun s => decide (s.entry = e)) = some r ∨
  (prev.find? (fun s => decide (s.entry = e)) = none ∧ r.entry = e ∧
    ((∃ p, e.password = some p ∧ r.password = p) ∨
      (e.password = none ∧ ∃ n, r.password = randomString rand n)) ∧
    createHash hashFn e.username r.password alg = .ok r.hash)

theorem ResolvedR.entry_eq {hashFn : String → String} {rand : Nat → List Nat}
    {alg : String} {prev : List HashedEntry} {e : HtpasswdEntry} {r : HashedEntry}
    (h : ResolvedR hashFn rand alg prev e r) : r.entry = e := by
  rcases h with hfind | ⟨_, he, _⟩
  · have := List.find?_some hfind
    simpa using this
  · exact he

theorem resolveEntries_forall₂ {hashFn : String → String} {rand : Nat → List Nat}
    {alg : String} {prev : List HashedEntry} :
    ∀ {entries : List HtpasswdEntry} {ctr : Nat} {res : List HashedEntry} {ctr' : Nat},
    resolveEntries hashFn rand alg prev entries ctr = .ok (res, ctr') →
    List.Forall₂ (ResolvedR hashFn rand alg prev) entries res := by
  intro entries
  induction entries with
  | nil =>
      intro ctr res ctr' h
      simp only [resolveEntries, Except.ok.injEq, Prod.mk.injEq] at h
      rw [← h.1]
      exact List.Forall₂.nil
  | cons e rest ih =>
      intro ctr res ctr' h
      rw [resolveEntries] at h
      cases hfind : prev.find? (fun s => decide (s.entry = e)) with
      | some q =>
          rw [hfind] at h
          dsimp only at h
          rw [except_bind_ok] at h
          obtain ⟨⟨hs, c⟩, hrec, hok⟩ := h
          simp only [Except.ok.injEq, Prod.mk.injEq] at hok
          rw [← hok.1]
          exact List.Forall₂.cons (Or.inl hfind) (ih hrec)
      | none =>
          rw [hfind] at h
          cases hpw : e.password with
          | some p =>
              rw [hpw] at h
              dsimp only at h
              rw [except_bind_ok] at h
              obtain ⟨hh, hch, h⟩ := h
              rw [except_bind_ok] at h
              obtain ⟨⟨hs, c⟩, hrec, hok⟩ := h
              simp only [Except.ok.injEq, Prod.mk.injEq] at hok
              rw [← hok.1]
              exact List.Forall₂.cons
                (Or.inr ⟨hfind, rfl, Or.inl ⟨p, hpw, rfl⟩, hch⟩) (ih hrec)
          | none =>
              rw [hpw] at h
              dsimp only at h
              rw [except_bind_ok] at h
              obtain ⟨hh, hch, h⟩ := h
              rw [except_bind_ok] at h
              obtain ⟨⟨hs, c⟩, hrec, hok⟩ := h
              simp only [Except.ok.injEq, Prod.mk.injEq] at hok
              rw [← hok.1]
              exact List.Forall₂.cons
                (Or.inr ⟨hfind, rfl, Or.inr ⟨hpw, ctr, rfl⟩, hch⟩) (ih hrec)

end Htpasswd

namespace Htpasswd

theorem forall₂_map_entry {hashFn : String → String} {rand : Nat → List Nat}
    {alg : String} {prev : List HashedEntry} {entries : List HtpasswdEntry}
    {res : List HashedEntry}
    (h : List.Forall₂ (ResolvedR hashFn rand alg prev) entries res) :
    res.map HashedEntry.entry = entries := by
  induction h with
  | nil => rfl
  | cons hR _ ih => simp [ih, hR.entry_eq]

theorem computeState_ok_iff {hashFn : String → String} {rand : Nat → List Nat}
    {ctr : Nat} {stOpt : Option ProviderState} {inputs : HtpasswdInputs}
    {st : ProviderState} {ctr' : Nat} :
    computeState hashFn rand ctr stOpt inputs = .ok (st, ctr') ↔
    ∃ res, resolveEntries hashFn rand (inputs.algorithm.getD defaultAlgorithm)
        ((stOpt.map ProviderState.hashedEntries).getD []) inputs.entries ctr =
        .ok (res, ctr') ∧
      st = ⟨inputs.algorithm.getD defaultAlgorithm, res⟩ := by
  rw [computeState]
  dsimp only
  rw [except_bind_ok]
  constructor
  · rintro ⟨⟨res, c⟩, hres, hok⟩
    simp only [Except.ok.injEq, Prod.mk.injEq] at hok
    exact ⟨res, by rw [hok.2] at hres; exact hres, hok.1.symm⟩
  · rintro ⟨res, hres, rfl⟩
    exact ⟨(res, ctr'), hres, rfl⟩

theorem computeState_error_iff {hashFn : String → String} {rand : Nat → List Nat}
    {ctr : Nat} {stOpt : Option ProviderState} {inputs : HtpasswdInputs}
    {err : HtpasswdError} :
    computeState hashFn rand ctr stOpt inputs = .error err ↔
    resolveEntries hashFn rand (inputs.algorithm.getD defaultAlgorithm)
      ((stOpt.map ProviderState.hashedEntries).getD []) inputs.entries ctr =
      .error err := by
  rw [computeState]
  dsimp only
  rw [except_bind_error]
  constructor
  · rintro (h | ⟨⟨res, c⟩, _, hok⟩)
    · exact h
    · simp at hok
  · exact Or.inl

theorem create_ok_iff {hashFn : String → String} {rand : Nat → List Nat}
    {ctr : Nat} {inputs : HtpasswdInputs} {idv : String} {outs : ProviderOutputs} :
    create hashFn rand ctr inputs = .ok (idv, outs) ↔
    ∃ st ctr', computeState hashFn rand ctr none inputs = .ok (st, ctr') ∧
      idv = randomString rand ctr' ∧ outs = computeOutputs st := by
  rw [create]
  dsimp only
  rw [except_bind_ok]
  constructor
  · rintro ⟨⟨st, c⟩, hst, hok⟩
    simp only [Except.ok.injEq, Prod.mk.injEq] at hok
    exact ⟨st, c, hst, hok.1.symm, hok.2.symm⟩
  · rintro ⟨st, c, hst, rfl, rfl⟩
    exact ⟨(st, c), hst, rfl⟩

theorem create_error_iff {hashFn : String → String} {rand : Nat → List Nat}
    {ctr : Nat} {inputs : HtpasswdInputs} {err : HtpasswdError} :
    create hashFn rand ctr inputs = .error err ↔
    computeState hashFn rand ctr none inputs = .error err := by
  rw [create]
  dsimp only
  rw [except_bind_error]
  constructor
  · rintro (h | ⟨⟨st, c⟩, _, hok⟩)
    · exact h
    · simp at hok
  · exact Or.inl

theorem update_ok_iff {hashFn : String → String} {rand : Nat → List Nat}
    {ctr : Nat} {olds : ProviderOutputs} {news : HtpasswdInputs}
    {outs : ProviderOutputs} :
    update hashFn rand ctr olds news = .ok outs ↔
    ∃ st ctr', computeState hashFn rand ctr olds.state news = .ok (st, ctr') ∧
      outs = computeOutputs st := by
  rw [update]
  dsimp only
  rw [except_bind_ok]
  constructor
  · rintro ⟨⟨st, c⟩, hst, hok⟩
    simp only [Except.ok.injEq] at hok
    exact ⟨st, c, hst, hok.symm⟩
  · rintro ⟨st, c, hst, rfl⟩
    exact ⟨(st, c), hst, rfl⟩

theorem update_error_iff {hashFn : String → String} {rand : Nat → List Nat}
    {ctr : Nat} {olds : ProviderOutputs} {news : HtpasswdInputs}
    {err : HtpasswdError} :
    update hashFn rand ctr olds news = .error err ↔
    computeState hashFn rand ctr olds.state news = .error err := by
  rw [update]
  dsimp only
  rw [except_bind_error]
  constructor
  · rintro (h | ⟨⟨st, c⟩, _, hok⟩)
    · exact h
    · simp at hok
  · exact Or.inl

end Htpasswd

namespace Htpasswd

theorem randomString_ne_empty {rand : Nat → List Nat} (hrand : ∀ n, rand n ≠ [])
    (n : Nat) : randomString rand n ≠ "" :=
  randomStringOfBytes_ne_empty (hrand n)

theorem validSupply_blocks_ne_nil {rand : Nat → List Nat} (h : validSupply rand)
    (n : Nat) : rand n ≠ [] := by
  intro hnil
  have := (h n).1
  rw [hnil] at this
  simp at this

theorem resolveEntries_ok {hashFn : String → String} {rand : Nat → List Nat}
    {alg : String} {prev : List HashedEntry} :
    ∀ (L : List HtpasswdEntry) (ctr : Nat),
    (∀ e ∈ L, (∃ q, prev.find? (fun s => decide (s.entry = e)) = some q) ∨
      (∃ p, e.password = some p ∧ p ≠ "" ∧ alg = bcryptTag)) →
    ∃ res ctr', resolveEntries hashFn rand alg prev L ctr = .ok (res, ctr') := by
  intro L
  induction L with
  | nil => exact fun ctr _ => ⟨[], ctr, rfl⟩
  | cons e rest ih =>
      intro ctr hyp
      cases hfind : prev.find? (fun s => decide (s.entry = e)) with
      | some q =>
          obtain ⟨res, c', hrec⟩ := ih ctr (fun x hx => hyp x (List.mem_cons_of_mem e hx))
          refine ⟨q :: res, c', ?_⟩
          rw [resolveEntries, hfind]
          dsimp only
          rw [except_bind_ok]
          exact ⟨(res, c'), hrec, rfl⟩
      | none =>
          rcases hyp e (List.mem_cons_self e rest) with ⟨q, hq⟩ | ⟨p, hp, hpne, halg⟩
          · rw [hfind] at hq
            cases hq
          · obtain ⟨res, c', hrec⟩ := ih ctr (fun x hx => hyp x (List.mem_cons_of_mem e hx))
            refine ⟨⟨e, p, e.username ++ ":" ++ hashFn p⟩ :: res, c', ?_⟩
            rw [resolveEntries, hfind, hp]
            dsimp only
            rw [except_bind_ok]
            refine ⟨e.username ++ ":" ++ hashFn p,
              createHash_ok_iff.mpr ⟨hpne, halg, rfl⟩, ?_⟩
            rw [except_bind_ok]
            exact ⟨(res, c'), hrec, rfl⟩

theorem resolveEntries_error_not_missing {hashFn : String → String}
    {rand : Nat → List Nat} {alg : String} {prev : List HashedEntry}
    (hrand : ∀ n, rand n ≠ []) :
    ∀ (L : List HtpasswdEntry) (ctr : Nat) {err : HtpasswdError},
    (∀ e ∈ L, e.password ≠ some "") →
    resolveEntries hashFn rand alg prev L ctr = .error err →
    err = .unsupportedAlgorithm := by
  intro L
  induction L with
  | nil =>
      intro ctr err _ h
      simp [resolveEntries] at h
  | cons e rest ih =>
      intro ctr err hp h
      rw [resolveEntries] at h
      cases hfind : prev.find? (fun s => decide (s.entry = e)) with
      | some q =>
          rw [hfind] at h
          dsimp only at h
          rw [except_bind_error] at h
          rcases h with h | ⟨⟨hs, c⟩, _, hok⟩
          · exact ih ctr (fun x hx => hp x (List.mem_cons_of_mem e hx)) h
          · simp at hok
      | none =>
          rw [hfind] at h
          cases hpw : e.password with
          | some p =>
              rw [hpw] at h
              dsimp only at h
              rw [except_bind_error] at h
              rcases h with h | ⟨hh, _, h⟩
              · rcases createHash_error_iff.mp h with ⟨hp0, _⟩ | ⟨_, _, he⟩
                · exact absurd (hpw.trans (by rw [hp0])) (hp e (List.mem_cons_self e rest))
                · exact he
              · rw [except_bind_error] at h
                rcases h with h | ⟨⟨hs, c⟩, _, hok⟩
                · exact ih (p, ctr).2 (fun x hx => hp x (List.mem_cons_of_mem e hx)) h
                · simp at hok
          | none =>
              rw [hpw] at h
              dsimp only at h
              rw [except_bind_error] at h
              rcases h with h | ⟨hh, _, h⟩
              · rcases createHash_error_iff.mp h with ⟨hp0, _⟩ | ⟨_, _, he⟩
                · exact absurd hp0 (randomString_ne_empty hrand ctr)
                · exact he
              · rw [except_bind_error] at h
                rcases h with h | ⟨⟨hs, c⟩, _, hok⟩
                · exact ih (ctr + 1) (fun x hx => hp x (List.mem_cons_of_mem e hx)) h
                · simp at hok

end Htpasswd

namespace Htpasswd

/-! ## Claim C9: character set of generated passwords -/

/-- C9: for every 32-byte block from the randomness source, the generated
password (base64 encoding followed by the replacements of `randomString`)
consists only of alphanumeric characters plus dash and underscore, and
contains no padding character. -/
theorem c9_generated_password_charset (bs : List Nat) (hlen : bs.length = 32)
    (hb : ∀ b ∈ bs, b < 256) :
    (∀ c ∈ (randomStringOfBytes bs).data, c.isAlphanum = true ∨ c = '-' ∨ c = '_') ∧
    '=' ∉ (randomStringOfBytes bs).data := by
  have hdata : (randomStringOfBytes bs).data =
      (((base64Chars bs).map (fun c => if c = '+' then '-' else c)).map
        (fun c => if c = '/' then '_' else c)).filter (fun c => c ≠ '=') := rfl
  constructor
  · intro c hc
    rw [hdata, List.mem_filter] at hc
    obtain ⟨hcmem, hcne⟩ := hc
    simp only [List.mem_map] at hcmem
    obtain ⟨c1, ⟨c0, hc0, rfl⟩, rfl⟩ := hcmem
    rcases base64Chars_mem hb hc0 with rfl | ⟨k, hk, rfl⟩
    · simp at hcne
    · exact mapped_b64_safe k hk
  · intro hc
    rw [hdata, List.mem_filter] at hc
    simp at hc

/-- Concrete instantiation of `c9_generated_password_charset` at the all-zero
32-byte block. -/
theorem c9_witness :
    (List.replicate 32 0).length = 32 ∧ (∀ b ∈ List.replicate 32 0, b < 256) ∧
    ((∀ c ∈ (randomStringOfBytes (List.replicate 32 0)).data,
        c.isAlphanum = true ∨ c = '-' ∨ c = '_') ∧
      '=' ∉ (randomStringOfBytes (List.replicate 32 0)).data) :=
  ⟨by decide, by decide,
    c9_generated_password_charset (List.replicate 32 0) (by decide) (by decide)⟩

/-! ## Claim C8: state composition -/

/-- The hash-correspondence invariant in its concrete Bcrypt form: every
hashed entry carries a non-empty resolved password and its `hash` field is
the canonical line built from its username and the bcrypt capability. -/
def bcryptInvariant (hashFn : String → String) (st : ProviderState) : Prop :=
  ∀ h ∈ st.hashedEntries, h.password ≠ "" ∧
    h.hash = h.entry.username ++ ":" ++ hashFn h.password

/-- C8: composing outputs from a resolved state is deterministic: the result
document is the newline join of one `username:hash` line per entry in input
order (no trailing newline), `plaintextEntries` is the parallel
username/resolved-password list in the same order, and the empty entry list
yields an empty document and empty plaintext list. -/
theorem c8_state_composition (hashFn : String → String) (st : ProviderState)
    (hinv : bcryptInvariant hashFn st) :
    (computeOutputs st).result = String.intercalate "\n"
      (st.hashedEntries.map (fun h => h.entry.username ++ ":" ++ hashFn h.password)) ∧
    (computeOutputs st).plaintextEntries =
      st.hashedEntries.map (fun h => ⟨h.entry.username, h.password⟩) ∧
    (st.hashedEntries = [] →
      (computeOutputs st).result = "" ∧ (computeOutputs st).plaintextEntries = []) := by
  refine ⟨?_, rfl, ?_⟩
  · unfold computeOutputs
    dsimp only
    congr 1
    apply List.map_congr_left
    intro h hm
    exact (hinv h hm).2
  · intro h0
    rw [computeOutputs]
    dsimp only
    rw [h0]
    exact ⟨rfl, rfl⟩

/-- Concrete instantiation of `c8_state_composition` at a one-entry state. -/
theorem c8_witness :
    bcryptInvariant (fun p => "H" ++ p)
      ⟨bcryptTag, [⟨⟨"u", some "p"⟩, "p", "u:Hp"⟩]⟩ ∧
    ((computeOutputs ⟨bcryptTag, [⟨⟨"u", some "p"⟩, "p", "u:Hp"⟩]⟩).result =
      String.intercalate "\n"
        ([⟨⟨"u", some "p"⟩, "p", "u:Hp"⟩].map
          (fun h : HashedEntry => h.entry.username ++ ":" ++ ("H" ++ h.password))) ∧
    (computeOutputs ⟨bcryptTag, [⟨⟨"u", some "p"⟩, "p", "u:Hp"⟩]⟩).plaintextEntries =
      [⟨⟨"u", some "p"⟩, "p", "u:Hp"⟩].map
        (fun h : HashedEntry => ⟨h.entry.username, h.password⟩) ∧
    (([⟨⟨"u", some "p"⟩, "p", "u:Hp"⟩] : List HashedEntry) = [] →
      (computeOutputs ⟨bcryptTag, [⟨⟨"u", some "p"⟩, "p", "u:Hp"⟩]⟩).result = "" ∧
      (computeOutputs ⟨bcryptTag, [⟨⟨"u", some "p"⟩, "p", "u:Hp"⟩]⟩).plaintextEntries
        = [])) := by
  have hinv : bcryptInvariant (fun p => "H" ++ p)
      ⟨bcryptTag, [⟨⟨"u", some "p"⟩, "p", "u:Hp"⟩]⟩ := by
    intro h hm
    rw [List.mem_singleton] at hm
    subst hm
    exact ⟨by decide, by decide⟩
  exact ⟨hinv, c8_state_composition (fun p => "H" ++ p)
    ⟨bcryptTag, [⟨⟨"u", some "p"⟩, "p", "u:Hp"⟩]⟩ hinv⟩

end Htpasswd

namespace Htpasswd

/-- A concrete stand-in for the injected bcrypt capability, used to
instantiate theorems at concrete inputs. -/
def demoHashFn : String → String := fun p => "H" ++ p

/-- A concrete randomness supply: block `n` is 32 copies of `n % 256`. -/
def demoRand : Nat → List Nat := fun n => List.replicate 32 (n % 256)

instance instDecEqExcept {e a : Type} [DecidableEq e] [DecidableEq a] :
    DecidableEq (Except e a)
  | .error x, .error y =>
    if h : x = y then .isTrue (by rw [h]) else .isFalse (by intro hc; cases hc; exact h rfl)
  | .error x, .ok y => .isFalse (by intro hc; cases hc)
  | .ok x, .error y => .isFalse (by intro hc; cases hc)
  | .ok x, .ok y =>
    if h : x = y then .isTrue (by rw [h]) else .isFalse (by intro hc; cases hc; exact h rfl)

theorem demoRand_valid : validSupply demoRand := by
  intro n
  refine ⟨by simp [demoRand], ?_⟩
  intro b hb
  simp only [demoRand] at hb
  rw [List.eq_of_mem_replicate hb]
  exact Nat.mod_lt n (by omega)

/-! ## Claim C2: diff semantics -/

/-- C2: `diff` reports a change unconditionally when no prior state exists;
otherwise it reports a change exactly when the effective algorithms differ or
the new desired entry list is not deeply, order-sensitively equal to the list
of original entries stored in the prior state. -/
theorem c2_diff_semantics (olds : Option ProviderOutputs) (news : HtpasswdInputs) :
    (olds.bind ProviderOutputs.state = none → (diff olds news).changes = true) ∧
    (∀ o st, olds = some o → o.state = some st →
      ((diff olds news).changes = true ↔
        st.algorithm ≠ news.algorithm.getD defaultAlgorithm ∨
        st.hashedEntries.map HashedEntry.entry ≠ news.entries)) := by
  constructor
  · intro h
    cases olds with
    | none => rfl
    | some o =>
        cases hst : o.state with
        | none => simp [diff, hst]
        | some st => simp [hst] at h
  · rintro o st rfl hst
    simp [diff, hst, not_and_or]

/-- Concrete instantiation of `c2_diff_semantics`: the bootstrap case and the
equality comparison at a one-entry prior state. -/
theorem c2_witness :
    (diff none ⟨[], none⟩).changes = true ∧
    ((diff (some ⟨"u:Hp", [⟨"u", "p"⟩],
        some ⟨bcryptTag, [⟨⟨"u", some "p"⟩, "p", "u:Hp"⟩]⟩⟩)
        ⟨[⟨"u", some "p"⟩], none⟩).changes = true ↔
      (⟨bcryptTag, [⟨⟨"u", some "p"⟩, "p", "u:Hp"⟩]⟩ : ProviderState).algorithm ≠
        (none : Option String).getD defaultAlgorithm ∨
      (⟨bcryptTag, [⟨⟨"u", some "p"⟩, "p", "u:Hp"⟩]⟩ :
          ProviderState).hashedEntries.map HashedEntry.entry ≠
        [⟨"u", some "p"⟩]) :=
  ⟨(c2_diff_semantics none ⟨[], none⟩).1 rfl,
    (c2_diff_semantics (some ⟨"u:Hp", [⟨"u", "p"⟩],
        some ⟨bcryptTag, [⟨⟨"u", some "p"⟩, "p", "u:Hp"⟩]⟩⟩) ⟨[⟨"u", some "p"⟩], none⟩).2
      ⟨"u:Hp", [⟨"u", "p"⟩], some ⟨bcryptTag, [⟨⟨"u", some "p"⟩, "p", "u:Hp"⟩]⟩⟩
      ⟨bcryptTag, [⟨⟨"u", some "p"⟩, "p", "u:Hp"⟩]⟩ rfl rfl⟩

/-! ## Claim C7: create followed by diff is quiescent -/

/-- C7: a successful `create(E, A)` immediately followed by `diff` against its
own outputs with the same inputs reports no changes. -/
theorem c7_create_then_diff (hashFn : String → String) (rand : Nat → List Nat)
    (ctr : Nat) (inputs : HtpasswdInputs) (idv : String) (outs : ProviderOutputs)
    (h : create hashFn rand ctr inputs = .ok (idv, outs)) :
    diff (some outs) inputs = ⟨false⟩ := by
  obtain ⟨st, c, hcs, _, rfl⟩ := create_ok_iff.mp h
  obtain ⟨res, hres, rfl⟩ := computeState_ok_iff.mp hcs
  have hmap : res.map HashedEntry.entry = inputs.entries :=
    forall₂_map_entry (resolveEntries_forall₂ hres)
  simp [diff, computeOutputs, hmap]

/-- Concrete instantiation of `c7_create_then_diff`. -/
theorem c7_witness :
    create demoHashFn demoRand 0 ⟨[⟨"u", some "p"⟩], none⟩ =
      .ok (randomString demoRand 0,
        ⟨"u:Hp", [⟨"u", "p"⟩], some ⟨bcryptTag, [⟨⟨"u", some "p"⟩, "p", "u:Hp"⟩]⟩⟩) ∧
    diff (some ⟨"u:Hp", [⟨"u", "p"⟩],
        some ⟨bcryptTag, [⟨⟨"u", some "p"⟩, "p", "u:Hp"⟩]⟩⟩)
      ⟨[⟨"u", some "p"⟩], none⟩ = ⟨false⟩ :=
  ⟨by decide,
    c7_create_then_diff demoHashFn demoRand 0 ⟨[⟨"u", some "p"⟩], none⟩
      (randomString demoRand 0)
      ⟨"u:Hp", [⟨"u", "p"⟩], some ⟨bcryptTag, [⟨⟨"u", some "p"⟩, "p", "u:Hp"⟩]⟩⟩
      (by decide)⟩

end Htpasswd

namespace Htpasswd

/-! ## Claim C1: entry resolution -/

/-- C1: a successful `computeState` returns one hashed entry per desired
entry, in order; a desired entry that is deeply equal to some previous hashed
entry's original entry gets that previous entry (resolved password and hash
carried forward unchanged), and otherwise the entry is resolved fresh: an
explicit password is kept, an unset password is drawn from the generator, and
the hash is the Hash Engine output under the effective algorithm. -/
theorem c1_entry_resolution (hashFn : String → String) (rand : Nat → List Nat)
    (ctr : Nat) (stOpt : Option ProviderState) (inputs : HtpasswdInputs)
    (st : ProviderState) (ctr' : Nat)
    (h : computeState hashFn rand ctr stOpt inputs = .ok (st, ctr')) :
    st.hashedEntries.length = inputs.entries.length ∧
    ∀ i (hi : i < inputs.entries.length) (hi' : i < st.hashedEntries.length),
      ((∃ q ∈ (stOpt.map ProviderState.hashedEntries).getD [],
          q.entry = inputs.entries.get ⟨i, hi⟩) →
        ∃ q ∈ (stOpt.map ProviderState.hashedEntries).getD [],
          q.entry = inputs.entries.get ⟨i, hi⟩ ∧ st.hashedEntries.get ⟨i, hi'⟩ = q) ∧
      ((¬ ∃ q ∈ (stOpt.map ProviderState.hashedEntries).getD [],
          q.entry = inputs.entries.get ⟨i, hi⟩) →
        (st.hashedEntries.get ⟨i, hi'⟩).entry = inputs.entries.get ⟨i, hi⟩ ∧
        (∀ p, (inputs.entries.get ⟨i, hi⟩).password = some p →
          (st.hashedEntries.get ⟨i, hi'⟩).password = p) ∧
        ((inputs.entries.get ⟨i, hi⟩).password = none →
          ∃ n, (st.hashedEntries.get ⟨i, hi'⟩).password = randomString rand n) ∧
        createHash hashFn (inputs.entries.get ⟨i, hi⟩).username
          (st.hashedEntries.get ⟨i, hi'⟩).password
          (inputs.algorithm.getD defaultAlgorithm) =
          .ok (st.hashedEntries.get ⟨i, hi'⟩).hash) := by
  obtain ⟨res, hres, rfl⟩ := computeState_ok_iff.mp h
  have hf := resolveEntries_forall₂ hres
  have hlen := hf.length_eq
  refine ⟨hlen.symm, ?_⟩
  intro i hi hi'
  have hR := (List.forall₂_iff_get.mp hf).2 i hi hi'
  set e := inputs.entries.get ⟨i, hi⟩ with he
  set r := (⟨inputs.algorithm.getD defaultAlgorithm, res⟩ :
    ProviderState).hashedEntries.get ⟨i, hi'⟩ with hr
  rcases hR with hfind | ⟨hnone, hentry, hpw, hch⟩
  · constructor
    · intro _
      refine ⟨r, List.mem_of_find?_eq_some hfind, ?_, rfl⟩
      have := List.find?_some hfind
      simpa using this
    · intro hno
      exfalso
      apply hno
      refine ⟨r, List.mem_of_find?_eq_some hfind, ?_⟩
      have := List.find?_some hfind
      simpa using this
  · constructor
    · intro ⟨q, hqmem, hqe⟩
      exfalso
      have := List.find?_eq_none.mp hnone q hqmem
      simp [hqe] at this
    · intro _
      refine ⟨hentry, ?_, ?_, hch⟩
      · intro p hp
        rcases hpw with ⟨p0, hp0, hrp⟩ | ⟨hn, _⟩
        · rw [hp0] at hp
          injection hp with hp
          rw [hrp, hp]
        · rw [hn] at hp
          cases hp
      · intro hn
        rcases hpw with ⟨p0, hp0, _⟩ | ⟨_, n, hrp⟩
        · rw [hn] at hp0
          cases hp0
        · exact ⟨n, hrp⟩

def c1wPrev : Option ProviderState :=
  some ⟨bcryptTag, [⟨⟨"u", some "p"⟩, "p", "u:Hp"⟩]⟩

def c1wInputs : HtpasswdInputs := ⟨[⟨"u", some "p"⟩, ⟨"v", some "q"⟩], none⟩

def c1wState : ProviderState :=
  ⟨bcryptTag, [⟨⟨"u", some "p"⟩, "p", "u:Hp"⟩, ⟨⟨"v", some "q"⟩, "q", "v:Hq"⟩]⟩

/-- Concrete instantiation of `c1_entry_resolution`: one carried-over entry
and one freshly hashed entry. -/
theorem c1_witness :
    computeState demoHashFn demoRand 0 c1wPrev c1wInputs = .ok (c1wState, 0) ∧
    (c1wState.hashedEntries.length = c1wInputs.entries.length ∧
    ∀ i (hi : i < c1wInputs.entries.length) (hi' : i < c1wState.hashedEntries.length),
      ((∃ q ∈ (c1wPrev.map ProviderState.hashedEntries).getD [],
          q.entry = c1wInputs.entries.get ⟨i, hi⟩) →
        ∃ q ∈ (c1wPrev.map ProviderState.hashedEntries).getD [],
          q.entry = c1wInputs.entries.get ⟨i, hi⟩ ∧
            c1wState.hashedEntries.get ⟨i, hi'⟩ = q) ∧
      ((¬ ∃ q ∈ (c1wPrev.map ProviderState.hashedEntries).getD [],
          q.entry = c1wInputs.entries.get ⟨i, hi⟩) →
        (c1wState.hashedEntries.get ⟨i, hi'⟩).entry = c1wInputs.entries.get ⟨i, hi⟩ ∧
        (∀ p, (c1wInputs.entries.get ⟨i, hi⟩).password = some p →
          (c1wState.hashedEntries.get ⟨i, hi'⟩).password = p) ∧
        ((c1wInputs.entries.get ⟨i, hi⟩).password = none →
          ∃ n, (c1wState.hashedEntries.get ⟨i, hi'⟩).password =
            randomString demoRand n) ∧
        createHash demoHashFn (c1wInputs.entries.get ⟨i, hi⟩).username
          (c1wState.hashedEntries.get ⟨i, hi'⟩).password
          (c1wInputs.algorithm.getD defaultAlgorithm) =
          .ok (c1wState.hashedEntries.get ⟨i, hi'⟩).hash)) := by
  have h : computeState demoHashFn demoRand 0 c1wPrev c1wInputs = .ok (c1wState, 0) := by
    decide
  exact ⟨h, (c1_entry_resolution demoHashFn demoRand 0 c1wPrev c1wInputs c1wState 0 h).1,
    (c1_entry_resolution demoHashFn demoRand 0 c1wPrev c1wInputs c1wState 0 h).2⟩

end Htpasswd

namespace Htpasswd

/-! ## Claim C5: reachability of MissingPassword -/

/-- C5 (amended): provided no desired entry carries an explicit empty-string
password, `MissingPassword` is unreachable from the public `create` and
`update` operations, because resolution supplies a (generated, non-empty)
password for unset fields.  An explicit empty-string password does reach the
Hash Engine and triggers `MissingPassword` (see the counterexample). -/
theorem c5_amended_missing_password (hashFn : String → String)
    (rand : Nat → List Nat) (ctr : Nat) (inputs : HtpasswdInputs)
    (olds : ProviderOutputs) (hsup : validSupply rand)
    (hp : ∀ e ∈ inputs.entries, e.password ≠ some "") :
    (∀ u, create hashFn rand ctr inputs ≠ .error (.missingPassword u)) ∧
    (∀ u, update hashFn rand ctr olds inputs ≠ .error (.missingPassword u)) := by
  have hrand : ∀ n, rand n ≠ [] := validSupply_blocks_ne_nil hsup
  constructor
  · intro u hc
    have h1 := computeState_error_iff.mp (create_error_iff.mp hc)
    have h2 := resolveEntries_error_not_missing hrand inputs.entries ctr hp h1
    exact HtpasswdError.noConfusion h2
  · intro u hc
    have h1 := computeState_error_iff.mp (update_error_iff.mp hc)
    have h2 := resolveEntries_error_not_missing hrand inputs.entries ctr hp h1
    exact HtpasswdError.noConfusion h2

/-- C5 counterexample: an entry whose password is explicitly the empty string
makes `create` fail with `MissingPassword`, so the failure is reachable from
the public operations without any resolver defect. -/
theorem c5_counterexample :
    create demoHashFn demoRand 0 ⟨[⟨"u", some ""⟩], none⟩ =
      .error (.missingPassword "u") := by
  decide

/-- Concrete instantiation of `c5_amended_missing_password`. -/
theorem c5_witness :
    validSupply demoRand ∧
    (∀ e ∈ ([⟨"u", some "p"⟩] : List HtpasswdEntry), e.password ≠ some "") ∧
    ((∀ u, create demoHashFn demoRand 0 ⟨[⟨"u", some "p"⟩], none⟩ ≠
        .error (.missingPassword u)) ∧
      (∀ u, update demoHashFn demoRand 0 ⟨"", [], none⟩ ⟨[⟨"u", some "p"⟩], none⟩ ≠
        .error (.missingPassword u))) :=
  ⟨demoRand_valid, by decide,
    c5_amended_missing_password demoHashFn demoRand 0 ⟨[⟨"u", some "p"⟩], none⟩
      ⟨"", [], none⟩ demoRand_valid (by decide)⟩

/-! ## Claim C6: unknown algorithm tags -/

theorem resolveEntries_error_of_nonbcrypt {hashFn : String → String}
    {rand : Nat → List Nat} {alg : String} {prev : List HashedEntry}
    (hrand : ∀ n, rand n ≠ []) (hb : alg ≠ bcryptTag) :
    ∀ (L : List HtpasswdEntry) (ctr : Nat),
    (∀ e ∈ L, e.password ≠ some "") →
    (∃ e ∈ L, ∀ q ∈ prev, q.entry ≠ e) →
    resolveEntries hashFn rand alg prev L ctr = .error .unsupportedAlgorithm := by
  intro L
  induction L with
  | nil =>
      rintro ctr _ ⟨e, he, _⟩
      cases he
  | cons e rest ih =>
      rintro ctr hp ⟨x, hxmem, hxprop⟩
      cases hfind : prev.find? (fun s => decide (s.entry = e)) with
      | some q =>
          have hqe : q.entry = e := by
            have := List.find?_some hfind
            simpa using this
          rcases List.mem_cons.mp hxmem with rfl | hxr
          · exact absurd hqe (hxprop q (List.mem_of_find?_eq_some hfind))
          · rw [resolveEntries, hfind]
            dsimp only
            rw [except_bind_error]
            exact Or.inl (ih ctr (fun y hy => hp y (List.mem_cons_of_mem e hy))
              ⟨x, hxr, hxprop⟩)
      | none =>
          rw [resolveEntries, hfind]
          cases hpw : e.password with
          | some p =>
              dsimp only
              rw [except_bind_error]
              refine Or.inl (createHash_error_iff.mpr (Or.inr ⟨?_, hb, rfl⟩))
              intro hp0
              exact hp e (List.mem_cons_self e rest) (by rw [hpw, hp0])
          | none =>
              dsimp only
              rw [except_bind_error]
              exact Or.inl (createHash_error_iff.mpr
                (Or.inr ⟨randomString_ne_empty hrand ctr, hb, rfl⟩))

/-- C6 (amended): with an algorithm tag outside the enumeration, any
operation that must actually hash some entry fails with
`UnsupportedAlgorithm` and produces no output — for `create` a non-empty
entry list suffices, for `update` some desired entry must lack a deeply
equal previous entry (assuming no explicit empty-string passwords, which
would trigger `MissingPassword` first).  An operation that needs no hashing
(`create` of an empty list, or an update whose entries are all carried over)
succeeds despite the unknown tag: see the counterexample. -/
theorem c6_amended_unknown_algorithm (hashFn : String → String)
    (rand : Nat → List Nat) (ctr : Nat) (inputs : HtpasswdInputs) (a : String)
    (olds : ProviderOutputs) (hsup : validSupply rand)
    (hp : ∀ e ∈ inputs.entries, e.password ≠ some "")
    (ha : inputs.algorithm = some a) (hb : a ≠ bcryptTag) :
    (inputs.entries ≠ [] →
      create hashFn rand ctr inputs = .error .unsupportedAlgorithm) ∧
    ((∃ e ∈ inputs.entries,
        ∀ q ∈ (olds.state.map ProviderState.hashedEntries).getD [], q.entry ≠ e) →
      update hashFn rand ctr olds inputs = .error .unsupportedAlgorithm) := by
  have hrand : ∀ n, rand n ≠ [] := validSupply_blocks_ne_nil hsup
  have halg : inputs.algorithm.getD defaultAlgorithm = a := by rw [ha]; rfl
  constructor
  · intro hne
    rw [create_error_iff, computeState_error_iff, halg]
    obtain ⟨e, rest, hcons⟩ := List.exists_cons_of_ne_nil hne
    refine resolveEntries_error_of_nonbcrypt hrand hb _ ctr hp
      ⟨e, ?_, fun q hq => absurd hq (List.not_mem_nil q)⟩
    rw [hcons]
    exact List.mem_cons_self e rest
  · intro hex
    rw [update_error_iff, computeState_error_iff, halg]
    exact resolveEntries_error_of_nonbcrypt hrand hb _ ctr hp hex

/-- C6 counterexample: `create` with algorithm tag `"MD5"` and an empty entry
list succeeds and produces output (no hashing is needed, so the unknown tag
is never inspected), contradicting the claim that every input with a tag
outside the enumeration is rejected. -/
theorem c6_counterexample :
    create demoHashFn demoRand 0 ⟨[], some "MD5"⟩ =
      .ok (randomString demoRand 0, ⟨"", [], some ⟨"MD5", []⟩⟩) := by
  decide

/-- Concrete instantiation of `c6_amended_unknown_algorithm`. -/
theorem c6_witness :
    validSupply demoRand ∧
    (∀ e ∈ ([⟨"u", some "p"⟩] : List HtpasswdEntry), e.password ≠ some "") ∧
    (("MD5" : String) ≠ bcryptTag) ∧
    create demoHashFn demoRand 0 ⟨[⟨"u", some "p"⟩], some "MD5"⟩ =
      .error .unsupportedAlgorithm ∧
    update demoHashFn demoRand 0 ⟨"", [], none⟩ ⟨[⟨"u", some "p"⟩], some "MD5"⟩ =
      .error .unsupportedAlgorithm :=
  ⟨demoRand_valid, by decide, by decide,
    (c6_amended_unknown_algorithm demoHashFn demoRand 0
      ⟨[⟨"u", some "p"⟩], some "MD5"⟩ "MD5" ⟨"", [], none⟩ demoRand_valid
      (by decide) rfl (by decide)).1 (by decide),
    (c6_amended_unknown_algorithm demoHashFn demoRand 0
      ⟨[⟨"u", some "p"⟩], some "MD5"⟩ "MD5" ⟨"", [], none⟩ demoRand_valid
      (by decide) rfl (by decide)).2 (by decide)⟩

end Htpasswd

namespace Htpasswd

/-! ## Claim C3: the hash correspondence invariant -/

/-- States producible by the provider: the output state of a `computeState`
run with no previous state (a `create`, or an `update` handed outputs with no
state snapshot), or of a `computeState` run against a previously producible
state (an `update`), under a fixed injected hash capability and randomness
supply. -/
inductive Reachable (hashFn : String → String) (rand : Nat → List Nat) :
    ProviderState → Prop where
  | create {ctr : Nat} {inputs : HtpasswdInputs} {st : ProviderState} {ctr' : Nat} :
      computeState hashFn rand ctr none inputs = .ok (st, ctr') →
      Reachable hashFn rand st
  | update {prev : ProviderState} {ctr : Nat} {inputs : HtpasswdInputs}
      {st : ProviderState} {ctr' : Nat} :
      Reachable hashFn rand prev →
      computeState hashFn rand ctr (some prev) inputs = .ok (st, ctr') →
      Reachable hashFn rand st

theorem forall₂_invariant {hashFn : String → String} {rand : Nat → List Nat}
    {alg : String} {prevList : List HashedEntry} {entries : List HtpasswdEntry}
    {res : List HashedEntry}
    (hf : List.Forall₂ (ResolvedR hashFn rand alg prevList) entries res)
    (hprev : ∀ q ∈ prevList, q.password ≠ "" ∧
      q.hash = q.entry.username ++ ":" ++ hashFn q.password) :
    ∀ r ∈ res, r.password ≠ "" ∧
      r.hash = r.entry.username ++ ":" ++ hashFn r.password := by
  induction hf with
  | nil => intro r hr; cases hr
  | cons hR htail ih =>
      intro r hr
      rcases List.mem_cons.mp hr with rfl | hrt
      · rcases hR with hfind | ⟨_, hentry, _, hch⟩
        · exact hprev r (List.mem_of_find?_eq_some hfind)
        · obtain ⟨hpne, _, hh⟩ := createHash_ok_iff.mp hch
          exact ⟨hpne, by rw [hh, hentry]⟩
      · exact ih r hrt

/-- C3 (amended): every provider state reachable through `create`/`update`
satisfies the hash correspondence in its concrete Bcrypt form — each hashed
entry's `hash` is exactly the Hash Engine line for its username and resolved
password under the bcrypt capability — and therefore matches the Hash Engine
output at `(username, resolvedPassword, state.algorithm)` whenever
`state.algorithm` is the Bcrypt tag.  The unconditional claim at
`state.algorithm` fails when an update carries entries over while switching
to a tag outside the enumeration (see the counterexample). -/
theorem c3_amended_hash_invariant {hashFn : String → String}
    {rand : Nat → List Nat} {st : ProviderState} (h : Reachable hashFn rand st) :
    bcryptInvariant hashFn st ∧
    (st.algorithm = bcryptTag →
      ∀ r ∈ st.hashedEntries,
        createHash hashFn r.entry.username r.password st.algorithm = .ok r.hash) := by
  have hinv : bcryptInvariant hashFn st := by
    induction h with
    | create hcs =>
        obtain ⟨res, hres, rfl⟩ := computeState_ok_iff.mp hcs
        exact forall₂_invariant (resolveEntries_forall₂ hres)
          (fun q hq => absurd hq (List.not_mem_nil q))
    | update _ hcs ih =>
        obtain ⟨res, hres, rfl⟩ := computeState_ok_iff.mp hcs
        exact forall₂_invariant (resolveEntries_forall₂ hres) ih
  refine ⟨hinv, ?_⟩
  intro halg r hr
  obtain ⟨hpne, hh⟩ := hinv r hr
  exact createHash_ok_iff.mpr ⟨hpne, halg, hh⟩

/-- C3 counterexample: starting from the state `create` produced for one
explicit-password entry under Bcrypt, an update that keeps the entry but
switches the algorithm tag to `"MD5"` succeeds, carries the entry over, and
records `algorithm = "MD5"`, while the Hash Engine at
`("u", "p", "MD5")` produces no output at all — the stored hash is not the
Hash Engine output at `state.algorithm`. -/
theorem c3_counterexample :
    create demoHashFn demoRand 0 ⟨[⟨"u", some "p"⟩], none⟩ =
      .ok (randomString demoRand 0,
        ⟨"u:Hp", [⟨"u", "p"⟩], some ⟨bcryptTag, [⟨⟨"u", some "p"⟩, "p", "u:Hp"⟩]⟩⟩) ∧
    update demoHashFn demoRand 1
      ⟨"u:Hp", [⟨"u", "p"⟩], some ⟨bcryptTag, [⟨⟨"u", some "p"⟩, "p", "u:Hp"⟩]⟩⟩
      ⟨[⟨"u", some "p"⟩], some "MD5"⟩ =
      .ok ⟨"u:Hp", [⟨"u", "p"⟩], some ⟨"MD5", [⟨⟨"u", some "p"⟩, "p", "u:Hp"⟩]⟩⟩ ∧
    createHash demoHashFn "u" "p" "MD5" = .error .unsupportedAlgorithm :=
  ⟨by decide, by decide, by decide⟩

/-- Concrete instantiation of `c3_amended_hash_invariant` at a state reached
by a `create`. -/
theorem c3_witness :
    Reachable demoHashFn demoRand ⟨bcryptTag, [⟨⟨"u", some "p"⟩, "p", "u:Hp"⟩]⟩ ∧
    (bcryptInvariant demoHashFn ⟨bcryptTag, [⟨⟨"u", some "p"⟩, "p", "u:Hp"⟩]⟩ ∧
      ((⟨bcryptTag, [⟨⟨"u", some "p"⟩, "p", "u:Hp"⟩]⟩ : ProviderState).algorithm =
          bcryptTag →
        ∀ r ∈ (⟨bcryptTag, [⟨⟨"u", some "p"⟩, "p", "u:Hp"⟩]⟩ :
            ProviderState).hashedEntries,
          createHash demoHashFn r.entry.username r.password
            (⟨bcryptTag, [⟨⟨"u", some "p"⟩, "p", "u:Hp"⟩]⟩ :
              ProviderState).algorithm = .ok r.hash)) := by
  have hr : Reachable demoHashFn demoRand
      ⟨bcryptTag, [⟨⟨"u", some "p"⟩, "p", "u:Hp"⟩]⟩ :=
    @Reachable.create demoHashFn demoRand 0 ⟨[⟨"u", some "p"⟩], none⟩
      ⟨bcryptTag, [⟨⟨"u", some "p"⟩, "p", "u:Hp"⟩]⟩ 0 (by decide)
  exact ⟨hr, c3_amended_hash_invariant hr⟩

end Htpasswd

namespace Htpasswd

/-! ## Claim C4: selective recompute -/

theorem string_append_left_cancel {s a b : String} (h : s ++ a = s ++ b) : a = b := by
  have h2 : (s ++ a).data = (s ++ b).data := congrArg String.data h
  rw [String.data_append, String.data_append] at h2
  exact String.ext (List.append_cancel_left h2)

theorem demoHashFn_injective : Function.Injective demoHashFn := by
  intro a b h
  exact string_append_left_cancel h

theorem find?_entry_nodup {R : List HashedEntry}
    (hnd : (R.map HashedEntry.entry).Nodup) :
    ∀ (j : Nat) (hj : j < R.length),
    R.find? (fun s => decide (s.entry = (R.get ⟨j, hj⟩).entry)) =
      some (R.get ⟨j, hj⟩) := by
  induction R with
  | nil => intro j hj; exact absurd hj (by simp)
  | cons r R' ih =>
      intro j hj
      have hnd' : (r.entry :: R'.map HashedEntry.entry).Nodup := by simpa using hnd
      cases j with
      | zero =>
          have hget : (r :: R').get ⟨0, hj⟩ = r := rfl
          rw [hget]
          exact List.find?_cons_of_pos _ (by simp)
      | succ j =>
          have hj' : j < R'.length := by simpa using hj
          have hget : (r :: R').get ⟨j + 1, hj⟩ = R'.get ⟨j, hj'⟩ := rfl
          rw [hget]
          rw [List.find?_cons_of_neg]
          · exact ih (List.nodup_cons.mp hnd').2 j hj'
          · simp only [decide_eq_true_eq]
            intro heq
            have hmem : (R'.get ⟨j, hj'⟩).entry ∈ R'.map HashedEntry.entry :=
              List.mem_map_of_mem _ (R'.get_mem j hj')
            rw [← heq] at hmem
            exact (List.nodup_cons.mp hnd').1 hmem

end Htpasswd

namespace Htpasswd

/-- C4 (amended): for a desired list of at least two pairwise-distinct
entries with an explicit password at the changed position, changing only
that entry's password (to a different, non-empty value that does not make
the entry deeply equal to any other entry) and calling `update` succeeds and
yields, for an injective hash capability, a byte-identical hash for every
other entry and a different hash only for the changed entry.  Without the
pairwise-distinctness proviso the claim fails: duplicate desired entries all
reuse the first matching previous entry, so an unrelated duplicate's hash
can change (see the counterexample). -/
theorem c4_amended_selective_recompute (hashFn : String → String)
    (rand : Nat → List Nat) (hinj : Function.Injective hashFn)
    (E : List HtpasswdEntry) (alg : Option String) (ctr ctr2 : Nat)
    (i : Nat) (hi : i < E.length) (p p' : String)
    (hlen2 : 2 ≤ E.length) (hnd : E.Nodup)
    (hp : (E.get ⟨i, hi⟩).password = some p) (hpp : p' ≠ p) (hpe : p' ≠ "")
    (hnew : (⟨(E.get ⟨i, hi⟩).username, some p'⟩ : HtpasswdEntry) ∉ E)
    (idv : String) (outs : ProviderOutputs)
    (hcreate : create hashFn rand ctr ⟨E, alg⟩ = .ok (idv, outs)) :
    ∃ st st' outs',
      outs.state = some st ∧
      update hashFn rand ctr2 outs
        ⟨E.set i ⟨(E.get ⟨i, hi⟩).username, some p'⟩, alg⟩ = .ok outs' ∧
      outs'.state = some st' ∧
      st'.hashedEntries.length = st.hashedEntries.length ∧
      (∀ j (hj : j < st.hashedEntries.length) (hj' : j < st'.hashedEntries.length),
        j ≠ i →
        (st'.hashedEntries.get ⟨j, hj'⟩).hash = (st.hashedEntries.get ⟨j, hj⟩).hash) ∧
      (∀ (hj : i < st.hashedEntries.length) (hj' : i < st'.hashedEntries.length),
        (st'.hashedEntries.get ⟨i, hj'⟩).hash ≠ (st.hashedEntries.get ⟨i, hj⟩).hash) := by
  obtain ⟨st0, c1, hcs, hid, houts⟩ := create_ok_iff.mp hcreate
  obtain ⟨R, hres, hst0⟩ := computeState_ok_iff.mp hcs
  have hres' : resolveEntries hashFn rand (alg.getD defaultAlgorithm) [] E ctr =
      .ok (R, c1) := hres
  have hfE := resolveEntries_forall₂ hres'
  have hmap : R.map HashedEntry.entry = E := forall₂_map_entry hfE
  have hlenR : R.length = E.length := by rw [← hmap, List.length_map]
  have hfresh : ∀ j (hjE : j < E.length) (hjR : j < R.length),
      (R.get ⟨j, hjR⟩).entry = E.get ⟨j, hjE⟩ ∧
      (∀ q, (E.get ⟨j, hjE⟩).password = some q → (R.get ⟨j, hjR⟩).password = q) ∧
      createHash hashFn (E.get ⟨j, hjE⟩).username (R.get ⟨j, hjR⟩).password
        (alg.getD defaultAlgorithm) = .ok (R.get ⟨j, hjR⟩).hash := by
    intro j hjE hjR
    have hR := (List.forall₂_iff_get.mp hfE).2 j hjE hjR
    rcases hR with hfind | ⟨_, he, hpw, hch⟩
    · exact absurd hfind (by simp [List.find?])
    · refine ⟨he, ?_, hch⟩
      intro q hq
      rcases hpw with ⟨q0, hq0, hrq⟩ | ⟨hn, _⟩
      · rw [hq0] at hq
        injection hq with hq
        rw [hrq, hq]
      · rw [hn] at hq
        cases hq
  have hEpos : 0 < E.length := by omega
  have hRpos : 0 < R.length := by omega
  have halgB : alg.getD defaultAlgorithm = bcryptTag :=
    (createHash_ok_iff.mp (hfresh 0 hEpos hRpos).2.2).2.1
  have hndR : (R.map HashedEntry.entry).Nodup := by rw [hmap]; exact hnd
  have hfind_new : R.find? (fun s =>
      decide (s.entry = (⟨(E.get ⟨i, hi⟩).username, some p'⟩ : HtpasswdEntry))) =
      none := by
    rw [List.find?_eq_none]
    intro q hq
    simp only [decide_eq_true_eq]
    intro hqe
    have hqm : q.entry ∈ R.map HashedEntry.entry := List.mem_map_of_mem _ hq
    rw [hmap, hqe] at hqm
    exact hnew hqm
  have hhyp : ∀ x ∈ E.set i ⟨(E.get ⟨i, hi⟩).username, some p'⟩,
      (∃ q, R.find? (fun s => decide (s.entry = x)) = some q) ∨
      (∃ q, x.password = some q ∧ q ≠ "" ∧ alg.getD defaultAlgorithm = bcryptTag) := by
    intro x hx
    rcases List.mem_or_eq_of_mem_set hx with hxE | rfl
    · left
      have hxm : x ∈ R.map HashedEntry.entry := by rw [hmap]; exact hxE
      obtain ⟨q, hqR, hqe⟩ := List.mem_map.mp hxm
      have hsome : (R.find? (fun s => decide (s.entry = x))).isSome :=
        List.find?_isSome.mpr ⟨q, hqR, by simp [hqe]⟩
      exact Option.isSome_iff_exists.mp hsome
    · right
      exact ⟨p', rfl, hpe, halgB⟩
  obtain ⟨res', c'', hres2⟩ :=
    resolveEntries_ok (E.set i ⟨(E.get ⟨i, hi⟩).username, some p'⟩) ctr2 hhyp
  have houts' : outs = computeOutputs ⟨alg.getD defaultAlgorithm, R⟩ := by
    rw [houts, hst0]
  have hupd : update hashFn rand ctr2 outs
      ⟨E.set i ⟨(E.get ⟨i, hi⟩).username, some p'⟩, alg⟩ =
      .ok (computeOutputs ⟨alg.getD defaultAlgorithm, res'⟩) := by
    rw [update_ok_iff]
    refine ⟨⟨alg.getD defaultAlgorithm, res'⟩, c'', ?_, rfl⟩
    rw [computeState_ok_iff]
    refine ⟨res', ?_, rfl⟩
    rw [houts']
    exact hres2
  have hfE' := resolveEntries_forall₂ hres2
  have hlenE' : (E.set i ⟨(E.get ⟨i, hi⟩).username, some p'⟩).length = E.length := by
    simp
  have hl2 := hfE'.length_eq
  rw [hlenE'] at hl2
  refine ⟨⟨alg.getD defaultAlgorithm, R⟩, ⟨alg.getD defaultAlgorithm, res'⟩,
    computeOutputs ⟨alg.getD defaultAlgorithm, res'⟩, by rw [houts']; rfl, hupd, rfl,
    ?_, ?_, ?_⟩
  · dsimp only
    omega
  · intro j hj hj' hji
    dsimp only at hj hj' ⊢
    have hjE : j < E.length := by omega
    have hjE' : j < (E.set i ⟨(E.get ⟨i, hi⟩).username, some p'⟩).length := by
      rw [hlenE']
      exact hjE
    have hR := (List.forall₂_iff_get.mp hfE').2 j hjE' hj'
    have hsetj : (E.set i ⟨(E.get ⟨i, hi⟩).username, some p'⟩).get ⟨j, hjE'⟩ =
        E.get ⟨j, hjE⟩ := by
      simp only [List.get_eq_getElem]
      exact List.getElem_set_ne (Ne.symm hji) hjE'
    have hfind_j : R.find? (fun s =>
        decide (s.entry =
          (E.set i ⟨(E.get ⟨i, hi⟩).username, some p'⟩).get ⟨j, hjE'⟩)) =
        some (R.get ⟨j, hj⟩) := by
      rw [hsetj, ← (hfresh j hjE hj).1]
      exact find?_entry_nodup hndR j hj
    rcases hR with hf2 | ⟨hnone, _⟩
    · have heq : some (res'.get ⟨j, hj'⟩) = some (R.get ⟨j, hj⟩) :=
        hf2.symm.trans hfind_j
      injection heq with heq
      rw [heq]
    · rw [hfind_j] at hnone
      cases hnone
  · intro hj hj'
    dsimp only at hj hj' ⊢
    have hiE' : i < (E.set i ⟨(E.get ⟨i, hi⟩).username, some p'⟩).length := by
      rw [hlenE']
      exact hi
    have hseti : (E.set i ⟨(E.get ⟨i, hi⟩).username, some p'⟩).get ⟨i, hiE'⟩ =
        ⟨(E.get ⟨i, hi⟩).username, some p'⟩ := by
      simp only [List.get_eq_getElem]
      exact List.getElem_set_self hiE'
    have hRi := (List.forall₂_iff_get.mp hfE').2 i hiE' hj'
    rw [hseti] at hRi
    rcases hRi with hf2 | ⟨hnone, hent, hpw, hch⟩
    · rw [hfind_new] at hf2
      cases hf2
    · have hpw' : (res'.get ⟨i, hj'⟩).password = p' := by
        rcases hpw with ⟨q0, hq0, hrq⟩ | ⟨hn, _⟩
        · injection hq0 with hq0
          rw [hrq, ← hq0]
        · cases hn
      have hhash' : (res'.get ⟨i, hj'⟩).hash =
          (E.get ⟨i, hi⟩).username ++ ":" ++ hashFn p' := by
        obtain ⟨_, _, hh⟩ := createHash_ok_iff.mp hch
        rw [hh, hpw']
      obtain ⟨_, _, hold_h⟩ := createHash_ok_iff.mp (hfresh i hi hj).2.2
      have holdp : (R.get ⟨i, hj⟩).password = p := (hfresh i hi hj).2.1 p hp
      rw [hhash', hold_h, holdp]
      intro heq
      exact hpp (hinj (string_append_left_cancel heq))

end Htpasswd

namespace Htpasswd

/-- C4 counterexample: with duplicate desired entries the claim fails.  The
list has three entries, the last two identical with unset passwords; create
resolves them to two different generated passwords and hashes.  Changing
only the first entry's password and updating makes both duplicates reuse the
first matching previous entry, so the third entry — untouched by the edit —
ends up with a different hash than before. -/
theorem c4_counterexample :
    create demoHashFn demoRand 0
      ⟨[⟨"a", some "x"⟩, ⟨"u", none⟩, ⟨"u", none⟩], none⟩ =
      .ok (randomString demoRand 2, computeOutputs ⟨bcryptTag,
        [⟨⟨"a", some "x"⟩, "x", "a:Hx"⟩,
         ⟨⟨"u", none⟩, randomString demoRand 0,
           "u" ++ ":" ++ demoHashFn (randomString demoRand 0)⟩,
         ⟨⟨"u", none⟩, randomString demoRand 1,
           "u" ++ ":" ++ demoHashFn (randomString demoRand 1)⟩]⟩) ∧
    update demoHashFn demoRand 5
      (computeOutputs ⟨bcryptTag,
        [⟨⟨"a", some "x"⟩, "x", "a:Hx"⟩,
         ⟨⟨"u", none⟩, randomString demoRand 0,
           "u" ++ ":" ++ demoHashFn (randomString demoRand 0)⟩,
         ⟨⟨"u", none⟩, randomString demoRand 1,
           "u" ++ ":" ++ demoHashFn (randomString demoRand 1)⟩]⟩)
      ⟨[⟨"a", some "y"⟩, ⟨"u", none⟩, ⟨"u", none⟩], none⟩ =
      .ok (computeOutputs ⟨bcryptTag,
        [⟨⟨"a", some "y"⟩, "y", "a:Hy"⟩,
         ⟨⟨"u", none⟩, randomString demoRand 0,
           "u" ++ ":" ++ demoHashFn (randomString demoRand 0)⟩,
         ⟨⟨"u", none⟩, randomString demoRand 0,
           "u" ++ ":" ++ demoHashFn (randomString demoRand 0)⟩]⟩) ∧
    ("u" ++ ":" ++ demoHashFn (randomString demoRand 0)) ≠
      ("u" ++ ":" ++ demoHashFn (randomString demoRand 1)) :=
  ⟨by decide, by decide, by decide⟩

/-- Concrete instantiation of `c4_amended_selective_recompute`. -/
theorem c4_witness :
    Function.Injective demoHashFn ∧
    create demoHashFn demoRand 0 ⟨[⟨"u", some "p"⟩, ⟨"v", some "q"⟩], none⟩ =
      .ok (randomString demoRand 0, computeOutputs ⟨bcryptTag,
        [⟨⟨"u", some "p"⟩, "p", "u:Hp"⟩, ⟨⟨"v", some "q"⟩, "q", "v:Hq"⟩]⟩) ∧
    (∃ st st' outs',
      (computeOutputs ⟨bcryptTag,
        [⟨⟨"u", some "p"⟩, "p", "u:Hp"⟩, ⟨⟨"v", some "q"⟩, "q", "v:Hq"⟩]⟩).state =
        some st ∧
      update demoHashFn demoRand 7
        (computeOutputs ⟨bcryptTag,
          [⟨⟨"u", some "p"⟩, "p", "u:Hp"⟩, ⟨⟨"v", some "q"⟩, "q", "v:Hq"⟩]⟩)
        ⟨([⟨"u", some "p"⟩, ⟨"v", some "q"⟩] : List HtpasswdEntry).set 0
          ⟨"u", some "z"⟩, none⟩ = .ok outs' ∧
      outs'.state = some st' ∧
      st'.hashedEntries.length = st.hashedEntries.length ∧
      (∀ j (hj : j < st.hashedEntries.length) (hj' : j < st'.hashedEntries.length),
        j ≠ 0 →
        (st'.hashedEntries.get ⟨j, hj'⟩).hash =
          (st.hashedEntries.get ⟨j, hj⟩).hash) ∧
      (∀ (hj : 0 < st.hashedEntries.length) (hj' : 0 < st'.hashedEntries.length),
        (st'.hashedEntries.get ⟨0, hj'⟩).hash ≠
          (st.hashedEntries.get ⟨0, hj⟩).hash)) := by
  have hc : create demoHashFn demoRand 0 ⟨[⟨"u", some "p"⟩, ⟨"v", some "q"⟩], none⟩ =
      .ok (randomString demoRand 0, computeOutputs ⟨bcryptTag,
        [⟨⟨"u", some "p"⟩, "p", "u:Hp"⟩, ⟨⟨"v", some "q"⟩, "q", "v:Hq"⟩]⟩) := by
    decide
  exact ⟨demoHashFn_injective, hc,
    c4_amended_selective_recompute demoHashFn demoRand demoHashFn_injective
      [⟨"u", some "p"⟩, ⟨"v", some "q"⟩] none 0 7 0 (by decide) "p" "z"
      (by decide) (by decide) (by decide) (by decide) (by decide) (by decide)
      (randomString demoRand 0)
      (computeOutputs ⟨bcryptTag,
        [⟨⟨"u", some "p"⟩, "p", "u:Hp"⟩, ⟨⟨"v", some "q"⟩, "q", "v:Hq"⟩]⟩) hc⟩

end Htpasswd

namespace Htpasswd

/-! ## Claim C10: legacy provider equivalence -/

theorem except_bind_ok_left {e a b : Type} (x : a) (f : a → Except e b) :
    ((Except.ok x : Except e a) >>= f) = f x := rfl

theorem except_bind_error_left {e a b : Type} (x : e) (f : a → Except e b) :
    ((Except.error x : Except e a) >>= f) = Except.error x := rfl

theorem legacyHashAll_error {hashFn : String → String} {alg : String}
    (hb : alg ≠ bcryptTag) (ps : List PlainEntry) (hne : ps ≠ []) :
    Legacy.legacyHashAll hashFn alg ps = .error .unsupportedAlgorithm := by
  obtain ⟨q, qs, rfl⟩ := List.exists_cons_of_ne_nil hne
  rw [Legacy.legacyHashAll]
  have hch : Legacy.legacyCreateHash hashFn q alg = .error .unsupportedAlgorithm := by
    simp [Legacy.legacyCreateHash, hb]
  rw [hch, except_bind_error_left]

theorem legacy_bridge_bcrypt {hashFn : String → String} {rand : Nat → List Nat}
    (hrand : ∀ n, rand n ≠ []) :
    ∀ (L : List HtpasswdEntry) (ctr : Nat),
    (∀ e ∈ L, e.password ≠ some "") →
    ∃ res ctr',
      resolveEntries hashFn rand bcryptTag [] L ctr = .ok (res, ctr') ∧
      Legacy.legacyResolve rand L ctr =
        (res.map (fun r => (⟨r.entry.username, r.password⟩ : PlainEntry)), ctr') ∧
      Legacy.legacyHashAll hashFn bcryptTag
        (res.map (fun r => (⟨r.entry.username, r.password⟩ : PlainEntry))) =
        .ok (res.map HashedEntry.hash) := by
  intro L
  induction L with
  | nil => exact fun ctr _ => ⟨[], ctr, rfl, rfl, rfl⟩
  | cons e rest ih =>
      intro ctr hp
      cases hpw : e.password with
      | some p =>
          have hpne : p ≠ "" := by
            intro h0
            exact hp e (List.mem_cons_self e rest) (by rw [hpw, h0])
          obtain ⟨res, ctr', h1, h2, h3⟩ :=
            ih ctr (fun x hx => hp x (List.mem_cons_of_mem e hx))
          have hch : createHash hashFn e.username p bcryptTag =
              .ok (e.username ++ ":" ++ hashFn p) :=
            createHash_ok_iff.mpr ⟨hpne, rfl, rfl⟩
          refine ⟨⟨e, p, e.username ++ ":" ++ hashFn p⟩ :: res, ctr', ?_, ?_, ?_⟩
          · rw [resolveEntries]
            dsimp only
            rw [hpw]
            dsimp only
            rw [hch, except_bind_ok_left, h1, except_bind_ok_left]
            rfl
          · rw [Legacy.legacyResolve]
            try dsimp only
            rw [hpw]
            try dsimp only
            try rw [h2]
            try rfl
          · rw [List.map_cons, Legacy.legacyHashAll]
            have hlch : Legacy.legacyCreateHash hashFn
                (⟨e.username, p⟩ : PlainEntry) bcryptTag =
                .ok (e.username ++ ":" ++ hashFn p) := by
              simp [Legacy.legacyCreateHash]
            rw [hlch, except_bind_ok_left, h3, except_bind_ok_left]
            rfl
      | none =>
          have hpne : randomString rand ctr ≠ "" := randomString_ne_empty hrand ctr
          obtain ⟨res, ctr', h1, h2, h3⟩ :=
            ih (ctr + 1) (fun x hx => hp x (List.mem_cons_of_mem e hx))
          have hch : createHash hashFn e.username (randomString rand ctr) bcryptTag =
              .ok (e.username ++ ":" ++ hashFn (randomString rand ctr)) :=
            createHash_ok_iff.mpr ⟨hpne, rfl, rfl⟩
          refine ⟨⟨e, randomString rand ctr,
            e.username ++ ":" ++ hashFn (randomString rand ctr)⟩ :: res, ctr',
            ?_, ?_, ?_⟩
          · rw [resolveEntries]
            dsimp only
            rw [hpw]
            dsimp only
            rw [hch, except_bind_ok_left, h1, except_bind_ok_left]
            rfl
          · rw [Legacy.legacyResolve]
            try dsimp only
            rw [hpw]
            try dsimp only
            try rw [h2]
            try rfl
          · rw [List.map_cons, Legacy.legacyHashAll]
            have hlch : Legacy.legacyCreateHash hashFn
                (⟨e.username, randomString rand ctr⟩ : PlainEntry) bcryptTag =
                .ok (e.username ++ ":" ++ hashFn (randomString rand ctr)) := by
              simp [Legacy.legacyCreateHash]
            rw [hlch, except_bind_ok_left, h3, except_bind_ok_left]
            rfl

/-- C10 (amended): on every input in which no entry's password is explicitly
the empty string, the legacy provider's `create` and the current provider's
`create`, run with the same injected randomness supply and hash capability,
agree: both fail identically, or both succeed with identical `result` strings
and identical plaintext entry lists.  On an entry with an explicit
empty-string password they disagree — the legacy provider hashes it while the
current provider fails with `MissingPassword` (see the counterexample). -/
theorem c10_amended_legacy_equivalence (hashFn : String → String)
    (rand : Nat → List Nat) (ctr : Nat) (inputs : HtpasswdInputs)
    (hsup : validSupply rand)
    (hp : ∀ e ∈ inputs.entries, e.password ≠ some "") :
    (create hashFn rand ctr inputs).map
      (fun r => (r.2.result, r.2.plaintextEntries)) =
    (Legacy.legacyCreate hashFn rand ctr inputs).map
      (fun r => (r.2.result, r.2.plaintextEntries)) := by
  have hrand := validSupply_blocks_ne_nil hsup
  by_cases halg : inputs.algorithm.getD defaultAlgorithm = bcryptTag
  · obtain ⟨res, ctr', h1, h2, h3⟩ := legacy_bridge_bcrypt hrand inputs.entries ctr hp
    have hc : create hashFn rand ctr inputs =
        .ok (randomString rand ctr',
          computeOutputs ⟨inputs.algorithm.getD defaultAlgorithm, res⟩) := by
      rw [create_ok_iff]
      exact ⟨⟨inputs.algorithm.getD defaultAlgorithm, res⟩, ctr',
        computeState_ok_iff.mpr ⟨res, by rw [halg]; exact h1, rfl⟩, rfl, rfl⟩
    have hl : Legacy.legacyCreate hashFn rand ctr inputs =
        .ok (randomString rand ctr',
          ⟨String.intercalate "\n" (res.map HashedEntry.hash),
            res.map (fun r => (⟨r.entry.username, r.password⟩ : PlainEntry)),
            inputs.algorithm.getD defaultAlgorithm, inputs.entries⟩) := by
      rw [Legacy.legacyCreate]
      try dsimp only
      rw [h2]
      try dsimp only
      rw [halg, h3, except_bind_ok_left]
      try rfl
    rw [hc, hl]
    rfl
  · cases hE : inputs.entries with
    | nil =>
        have hc : create hashFn rand ctr inputs =
            .ok (randomString rand ctr,
              computeOutputs ⟨inputs.algorithm.getD defaultAlgorithm, []⟩) := by
          rw [create_ok_iff]
          exact ⟨⟨inputs.algorithm.getD defaultAlgorithm, []⟩, ctr,
            computeState_ok_iff.mpr ⟨[], by rw [hE]; rfl, rfl⟩, rfl, rfl⟩
        have hl : Legacy.legacyCreate hashFn rand ctr inputs =
            .ok (randomString rand ctr,
              ⟨"", [], inputs.algorithm.getD defaultAlgorithm, inputs.entries⟩) := by
          rw [Legacy.legacyCreate]
          try dsimp only
          rw [hE]
          rfl
        rw [hc, hl]
        rfl
    | cons e rest =>
        have hcur : create hashFn rand ctr inputs = .error .unsupportedAlgorithm := by
          rw [create_error_iff, computeState_error_iff, hE]
          exact resolveEntries_error_of_nonbcrypt hrand halg (e :: rest) ctr
            (fun x hx => hp x (by rw [hE]; exact hx))
            ⟨e, List.mem_cons_self e rest, fun q hq => absurd hq (List.not_mem_nil q)⟩
        have hleg : Legacy.legacyCreate hashFn rand ctr inputs =
            .error .unsupportedAlgorithm := by
          rw [Legacy.legacyCreate]
          try dsimp only
          rw [hE, Legacy.legacyResolve]
          try dsimp only
          rw [legacyHashAll_error halg _ (by simp), except_bind_error_left]
        rw [hcur, hleg]
        rfl

/-- C10 counterexample: on an entry with an explicit empty-string password
the two providers disagree — the legacy `create` hashes the empty password
and succeeds while the current `create` fails with `MissingPassword`. -/
theorem c10_counterexample :
    (create demoHashFn demoRand 0 ⟨[⟨"u", some ""⟩], none⟩).map
      (fun r => (r.2.result, r.2.plaintextEntries)) ≠
    (Legacy.legacyCreate demoHashFn demoRand 0 ⟨[⟨"u", some ""⟩], none⟩).map
      (fun r => (r.2.result, r.2.plaintextEntries)) := by
  decide

/-- Concrete instantiation of `c10_amended_legacy_equivalence` at a
two-entry input (one explicit, one generated password). -/
theorem c10_witness :
    validSupply demoRand ∧
    (∀ e ∈ ([⟨"u", some "p"⟩, ⟨"w", none⟩] : List HtpasswdEntry),
      e.password ≠ some "") ∧
    (create demoHashFn demoRand 0 ⟨[⟨"u", some "p"⟩, ⟨"w", none⟩], none⟩).map
      (fun r => (r.2.result, r.2.plaintextEntries)) =
    (Legacy.legacyCreate demoHashFn demoRand 0
        ⟨[⟨"u", some "p"⟩, ⟨"w", none⟩], none⟩).map
      (fun r => (r.2.result, r.2.plaintextEntries)) :=
  ⟨demoRand_valid, by decide,
    c10_amended_legacy_equivalence demoHashFn demoRand 0
      ⟨[⟨"u", some "p"⟩, ⟨"w", none⟩], none⟩ demoRand_valid (by decide)⟩

end Htpasswd
